import Mathlib

/-!
Verification of the action log and replay renderer of the drawing app
(`src/components/DrawingApp.tsx`).

The component keeps two ordered sequences of drawing actions:
`actions` (the committed log, replayed in order) and `redoStack`
(actions removed by undo, available for redo).  The handlers
`handlePointerUp` (commit), `handleUndo`, `handleRedo` and
`handleClear` are translated below as pure state transformers, and the
redraw effect together with `drawAction` as a function producing the
ordered list of drawing primitives executed against the canvas.
Coordinates and sizes are modelled as rationals (the JS numbers hold
exact small values in every scenario of the spec); the circle radius,
produced by `Math.sqrt`, is modelled as a real number.
-/

namespace DrawingApp

/-- The tool tags of `type ToolType = "brush" | "eraser" | "rectangle" | "circle"`. -/
inductive ToolType where
  | brush
  | eraser
  | rectangle
  | circle
deriving DecidableEq, Repr

/-- A 2D point, `[number, number]` in the source. -/
abbrev Point := ℚ × ℚ

/-- `DrawingAction` from the source: one completed drawing operation.
`layer` is the index of the layer the action belongs to. -/
structure DrawingAction where
  type : ToolType
  points : List Point
  color : String
  size : ℚ
  layer : Nat
deriving DecidableEq, Repr

/-- `Layer` from the source: `{ name: string, visible: boolean }`. -/
structure Layer where
  name : String
  visible : Bool
deriving DecidableEq, Repr

/-- The undo/redo log state: the `actions` and `redoStack` React states. -/
structure LogState where
  actions : List DrawingAction
  redoStack : List DrawingAction
deriving DecidableEq, Repr

/-- The empty initial log state (`useState<DrawingAction[]>([])` twice). -/
def initLog : LogState := ⟨[], []⟩

/-- The commit step performed at the end of `handlePointerUp` once an action
has been built: `setActions(prev => [...prev, action]); setRedoStack([])`. -/
def commit (a : DrawingAction) (s : LogState) : LogState :=
  { actions := s.actions ++ [a], redoStack := [] }

/-- `handleUndo`: if `actions` is empty do nothing, otherwise push its last
element (`prev[prev.length - 1]`) onto the end of `redoStack`
(`[...redo, x]`) and drop it from `actions` (`prev.slice(0, -1)`).
The source guards with `prev.length === 0`, which holds exactly when
`getLast?` returns `none`. -/
def undo (s : LogState) : LogState :=
  match s.actions.getLast? with
  | none => s
  | some a => { actions := s.actions.dropLast, redoStack := s.redoStack ++ [a] }

/-- `handleRedo`: if `redoStack` is empty do nothing, otherwise append its last
element (`redo[redo.length - 1]`) to `actions` and drop it from `redoStack`
(`redo.slice(0, -1)`). -/
def redo (s : LogState) : LogState :=
  match s.redoStack.getLast? with
  | none => s
  | some a => { actions := s.actions ++ [a], redoStack := s.redoStack.dropLast }

/-- `handleClear`: `setActions(prev => prev.filter(a => a.layer !== currentLayer));
setRedoStack([])`, parameterised by the current layer index. -/
def clearLayer (i : Nat) (s : LogState) : LogState :=
  { actions := s.actions.filter (fun a => a.layer ≠ i), redoStack := [] }

/-- Running a list of commits (`handlePointerUp` events) from the empty log. -/
def commits (l : List DrawingAction) : LogState :=
  l.foldl (fun s a => commit a s) initLog

lemma undo_concat (t r : List DrawingAction) (a : DrawingAction) :
    undo ⟨t ++ [a], r⟩ = ⟨t, r ++ [a]⟩ := by
  simp [undo, List.getLast?_concat, List.dropLast_concat]

lemma redo_concat (t r : List DrawingAction) (a : DrawingAction) :
    redo ⟨t, r ++ [a]⟩ = ⟨t ++ [a], r⟩ := by
  simp [redo, List.getLast?_concat, List.dropLast_concat]

lemma undo_nil_actions (s : LogState) (h : s.actions = []) : undo s = s := by
  cases s with
  | mk acts r => simp_all [undo]

lemma redo_nil_redoStack (s : LogState) (h : s.redoStack = []) : redo s = s := by
  cases s with
  | mk acts r => simp_all [redo]

lemma commits_from (l : List DrawingAction) :
    ∀ t : List DrawingAction,
      l.foldl (fun s a => commit a s) ⟨t, []⟩ = ⟨t ++ l, []⟩ := by
  induction l with
  | nil => intro t; simp
  | cons a l ih =>
      intro t
      simp only [List.foldl_cons]
      have : commit a ⟨t, []⟩ = ⟨t ++ [a], []⟩ := rfl
      rw [this, ih (t ++ [a])]
      simp

lemma commits_eq (l : List DrawingAction) : commits l = ⟨l, []⟩ := by
  have h := commits_from l []
  simpa [commits, initLog] using h

/-- Undoing once per element of `u` peels `u` off the back of the committed
log and pushes it, reversed, onto the back of the redo stack. -/
lemma undo_iterate (u : List DrawingAction) :
    ∀ (t r : List DrawingAction),
      undo^[u.length] ⟨t ++ u, r⟩ = ⟨t, r ++ u.reverse⟩ := by
  induction u using List.reverseRecOn with
  | nil => intro t r; simp
  | append_singleton u a ih =>
      intro t r
      have hlen : (u ++ [a]).length = u.length + 1 := by simp
      rw [hlen, Function.iterate_succ_apply]
      have h1 : undo ⟨t ++ (u ++ [a]), r⟩ = ⟨t ++ u, r ++ [a]⟩ := by
        have := undo_concat (t ++ u) r a
        simpa [List.append_assoc] using this
      rw [h1, ih t (r ++ [a])]
      simp

/-- Redoing once per element of `v` moves `v.reverse` from the back of the
redo stack back onto the end of the committed log, restoring the original
order of `v`. -/
lemma redo_iterate (v : List DrawingAction) :
    ∀ (t r : List DrawingAction),
      redo^[v.length] ⟨t, r ++ v.reverse⟩ = ⟨t ++ v, r⟩ := by
  induction v with
  | nil => intro t r; simp
  | cons a v ih =>
      intro t r
      rw [List.length_cons, Function.iterate_succ_apply]
      have h1 : redo ⟨t, r ++ (a :: v).reverse⟩ = ⟨t ++ [a], r ++ v.reverse⟩ := by
        have := redo_concat t (r ++ v.reverse) a
        simpa [List.reverse_cons, List.append_assoc] using this
      rw [h1]
      have := ih (t ++ [a]) r
      simpa [List.append_assoc] using this

/-- A drawing primitive executed by `drawAction` against the 2D context:
one stroked polyline (`beginPath`/`moveTo`/`lineTo`/`stroke`), one stroked
rectangle (`strokeRect`), or one stroked circle (`arc` + `stroke`).
Each carries the stroke style and line width in effect. -/
inductive Prim where
  | strokePath (style : String) (width : ℚ) (points : List Point)
  | strokeRect (style : String) (width : ℚ) (x y w h : ℚ)
  | strokeCircle (style : String) (width : ℚ) (center : Point) (radius : ℝ)

/-- The radius computed for a circle action:
`Math.sqrt(Math.pow(x1 - x0, 2) + Math.pow(y1 - y0, 2))`. -/
noncomputable def circleRadius (p q : Point) : ℝ :=
  Real.sqrt (((q.1 - p.1) ^ 2 + (q.2 - p.2) ^ 2 : ℚ) : ℝ)

/-- `drawAction` from the source, as the list of drawing primitives it
executes.  Brush and eraser stroke the polyline through `points` (eraser
always with style `"#fff"`); rectangle and circle draw only when `points`
has exactly two entries (`action.points.length === 2`), the rectangle
spanning `(x0, y0)` to `(x1, y1)` via `strokeRect(x0, y0, x1 - x0, y1 - y0)`
and the circle centered at the first point with radius `circleRadius`. -/
noncomputable def drawAction (a : DrawingAction) : List Prim :=
  match a.type with
  | ToolType.brush => [Prim.strokePath a.color a.size a.points]
  | ToolType.eraser => [Prim.strokePath "#fff" a.size a.points]
  | ToolType.rectangle =>
      match a.points with
      | [(x0, y0), (x1, y1)] =>
          [Prim.strokeRect a.color a.size x0 y0 (x1 - x0) (y1 - y0)]
      | _ => []
  | ToolType.circle =>
      match a.points with
      | [(x0, y0), (x1, y1)] =>
          [Prim.strokeCircle a.color a.size (x0, y0) (circleRadius (x0, y0) (x1, y1))]
      | _ => []

/-- One step of the redraw effect: the initial `clearRect` over the whole
canvas, or the execution of one committed action via `drawAction`. -/
inductive RenderStep where
  | clear
  | run (a : DrawingAction)
deriving DecidableEq

/-- The layer loop of the redraw effect
(`layers.forEach((layer, idx) => ...)`), carrying the running index:
an invisible layer contributes nothing, a visible layer contributes
`actions.filter(a => a.layer === idx)` in order. -/
def replayAux (acts : List DrawingAction) : Nat → List Layer → List RenderStep
  | _, [] => []
  | i, l :: ls =>
      (if l.visible then (acts.filter (fun a => a.layer = i)).map RenderStep.run else [])
        ++ replayAux acts (i + 1) ls

/-- The redraw effect: `ctx.clearRect(0, 0, w, h)` over the whole surface,
then the indexed loop over the layer list. -/
def replay (layers : List Layer) (acts : List DrawingAction) : List RenderStep :=
  RenderStep.clear :: replayAux acts 0 layers

/-- Modelled from the spec's replay algorithm, for comparison with `replay`:
clear the surface, then for each layer in ascending index order (`enum`),
if visible, execute exactly the committed actions whose layer index equals
that layer's index, in their original commit order. -/
def replaySpec (layers : List Layer) (acts : List DrawingAction) : List RenderStep :=
  RenderStep.clear ::
    layers.enum.flatMap (fun p =>
      if p.2.visible then (acts.filter (fun a => a.layer = p.1)).map RenderStep.run else [])

lemma replayAux_enumFrom (acts : List DrawingAction) (layers : List Layer) :
    ∀ n : Nat,
      replayAux acts n layers =
        (List.enumFrom n layers).flatMap (fun p =>
          if p.2.visible then (acts.filter (fun a => a.layer = p.1)).map RenderStep.run
          else []) := by
  induction layers with
  | nil => intro n; simp [replayAux]
  | cons l ls ih =>
      intro n
      simp [replayAux, List.enumFrom, ih (n + 1)]

/-- The component state touched by the pointer handlers: the selected tool,
color, brush size and current layer, the log (`actions`/`redoStack`), and the
transient gesture state `isDrawing`, `currentPoints`, `startPoint`.
(The hover-preview mouse position is transient presentation state and is
not modelled.) -/
structure AppState where
  tool : ToolType
  color : String
  brushSize : ℚ
  actions : List DrawingAction
  redoStack : List DrawingAction
  isDrawing : Bool
  currentPoints : List Point
  startPoint : Option Point
  currentLayer : Nat
deriving DecidableEq, Repr

/-- The component's initial state: brush tool, color `"#2563eb"`, brush size
12, empty log, no gesture in progress, current layer 1. -/
def initApp : AppState :=
  { tool := ToolType.brush, color := "#2563eb", brushSize := 12,
    actions := [], redoStack := [], isDrawing := false,
    currentPoints := [], startPoint := none, currentLayer := 1 }

/-- `handlePointerDown` at cursor position `pos`: start drawing, record the
start point, and for brush/eraser reset `currentPoints` to `[pos]`. -/
def handlePointerDown (pos : Point) (s : AppState) : AppState :=
  { s with
    isDrawing := true,
    startPoint := some pos,
    currentPoints :=
      if s.tool = ToolType.brush ∨ s.tool = ToolType.eraser then [pos]
      else s.currentPoints }

/-- `handlePointerMove` at cursor position `pos`: when a brush/eraser gesture
is in progress, append `pos` to `currentPoints` (the segment also drawn
directly to the canvas is preview-only); otherwise the log and gesture state
are untouched. -/
def handlePointerMove (pos : Point) (s : AppState) : AppState :=
  if s.isDrawing then
    if s.tool = ToolType.brush ∨ s.tool = ToolType.eraser then
      { s with currentPoints := s.currentPoints ++ [pos] }
    else s
  else s

/-- `handlePointerUp` at cursor position `pos`: stop drawing; for brush/eraser
build an action from `[...currentPoints, pos]` and reset `currentPoints`;
for rectangle/circle build an action from `[startPoint, pos]` when
`startPoint` is set; a built action is committed
(`setActions(prev => [...prev, action]); setRedoStack([])`); finally clear
`startPoint`.  Note the handler does not test `isDrawing`. -/
def handlePointerUp (pos : Point) (s : AppState) : AppState :=
  if s.tool = ToolType.brush ∨ s.tool = ToolType.eraser then
    { s with
      isDrawing := false,
      actions := s.actions ++
        [{ type := s.tool, points := s.currentPoints ++ [pos],
           color := s.color, size := s.brushSize, layer := s.currentLayer }],
      redoStack := [],
      currentPoints := [],
      startPoint := none }
  else
    match s.startPoint with
    | some sp =>
        { s with
          isDrawing := false,
          actions := s.actions ++
            [{ type := s.tool, points := [sp, pos],
               color := s.color, size := s.brushSize, layer := s.currentLayer }],
          redoStack := [],
          startPoint := none }
    | none => { s with isDrawing := false, startPoint := none }

/-- The canvas `onMouseLeave` handler: `() => setIsDrawing(false)` and
nothing else. -/
def handleMouseLeave (s : AppState) : AppState :=
  { s with isDrawing := false }

/-- One user-level operation on the log: a commit (completed gesture), an
undo, a redo, or a clear of the layer with the given index. -/
inductive LogOp where
  | commit (a : DrawingAction)
  | undo
  | redo
  | clearLayer (i : Nat)
deriving DecidableEq, Repr

/-- Apply one log operation to a log state, via the handlers above. -/
def applyOp (s : LogState) : LogOp → LogState
  | LogOp.commit a => commit a s
  | LogOp.undo => undo s
  | LogOp.redo => redo s
  | LogOp.clearLayer i => clearLayer i s

/-- Run a sequence of log operations from the empty log. -/
def runOps (l : List LogOp) : LogState := l.foldl applyOp initLog

/-- The actions committed by a sequence of operations, in commit order. -/
def commitsOf (l : List LogOp) : List DrawingAction :=
  l.filterMap (fun op =>
    match op with
    | LogOp.commit a => some a
    | _ => none)

/-- The multiset-with-order content of a log state: committed actions
followed by the redo stack read oldest-undone-first. -/
def LogState.logContent (s : LogState) : List DrawingAction :=
  s.actions ++ s.redoStack.reverse

lemma applyOp_content_sublist (s : LogState) (op : LogOp) :
    (applyOp s op).logContent.Sublist (s.logContent ++ commitsOf [op]) := by
  cases op with
  | commit a =>
      simp only [applyOp, commit, LogState.logContent, commitsOf, List.filterMap,
        List.reverse_nil, List.append_nil, List.append_assoc]
      exact List.Sublist.append_left (List.sublist_append_right _ _) _
  | undo =>
      rcases h : s.actions.getLast? with _ | a
      · simp [applyOp, undo, h, commitsOf]
      · have hs : s.actions.dropLast ++ [a] = s.actions :=
          List.dropLast_append_getLast? a h
        have key : (applyOp s LogOp.undo).logContent = s.logContent := by
          simp only [applyOp, undo, h, LogState.logContent]
          rw [List.reverse_append, ← List.append_assoc]
          simp [hs]
        rw [key]
        simp [commitsOf]
  | redo =>
      rcases h : s.redoStack.getLast? with _ | a
      · simp [applyOp, redo, h, commitsOf]
      · have hs : s.redoStack.dropLast ++ [a] = s.redoStack :=
          List.dropLast_append_getLast? a h
        have key : (applyOp s LogOp.redo).logContent = s.logContent := by
          simp only [applyOp, redo, h, LogState.logContent]
          rw [← hs, List.reverse_append]
          simp
        rw [key]
        simp [commitsOf]
  | clearLayer i =>
      have h1 : ((s.actions.filter (fun a => a.layer ≠ i)).Sublist s.actions) :=
        List.filter_sublist _
      have h2 : s.actions.Sublist (s.actions ++ s.redoStack.reverse) :=
        List.sublist_append_left _ _
      simp only [applyOp, clearLayer, LogState.logContent, commitsOf, List.filterMap,
        List.reverse_nil, List.append_nil]
      exact h1.trans h2

lemma runOps_content_sublist (l : List LogOp) :
    ∀ s : LogState,
      (l.foldl applyOp s).logContent.Sublist (s.logContent ++ commitsOf l) := by
  induction l with
  | nil => intro s; simp [commitsOf]
  | cons op l ih =>
      intro s
      have h1 := ih (applyOp s op)
      have h2 : ((applyOp s op).logContent ++ commitsOf l).Sublist
          ((s.logContent ++ commitsOf [op]) ++ commitsOf l) :=
        List.Sublist.append (applyOp_content_sublist s op) (List.Sublist.refl _)
      have h3 : commitsOf (op :: l) = commitsOf [op] ++ commitsOf l := by
        cases op <;> simp [commitsOf]
      rw [List.foldl_cons]
      refine (h1.trans h2).trans ?_
      rw [h3, List.append_assoc]

lemma runOps_sublist (l : List LogOp) :
    (runOps l).logContent.Sublist (commitsOf l) := by
  have h := runOps_content_sublist l initLog
  simpa [runOps, initLog, LogState.logContent] using h

/-- A point as a vector in the Euclidean plane, for comparison of the
rendered radius with the Euclidean metric. -/
noncomputable def toPlane (p : Point) : EuclideanSpace ℝ (Fin 2) :=
  ![(p.1 : ℝ), (p.2 : ℝ)]

/-- Two concrete distinct actions, used as inputs of counterexamples and
witnesses. -/
def actA : DrawingAction :=
  { type := ToolType.brush, points := [], color := "#000000", size := 1, layer := 0 }

/-- A second concrete action, differing from `actA` in its layer. -/
def actB : DrawingAction :=
  { type := ToolType.brush, points := [], color := "#000000", size := 1, layer := 1 }

lemma count_filter_layer (i : Nat) (a : DrawingAction) :
    ∀ l : List DrawingAction,
      (l.filter (fun b => b.layer ≠ i)).count a =
        if a.layer = i then 0 else l.count a := by
  intro l
  induction l with
  | nil => simp
  | cons b l ih =>
      by_cases hb : b.layer = i
      · rw [List.filter_cons_of_neg (by simp [hb])]
        rw [ih]
        by_cases ha : a.layer = i
        · simp [ha]
        · have hne : b ≠ a := fun h => ha (h ▸ hb)
          simp [ha, List.count_cons, hne]
      · rw [List.filter_cons_of_pos (by simp [hb])]
        by_cases ha : a.layer = i
        · have hne : b ≠ a := fun h => hb (h ▸ ha)
          rw [List.count_cons_of_ne (fun h => hne h.symm), ih]
          simp [ha]
        · simp [List.count_cons, ih, ha]

/-- C1: starting from the empty log, a sequence of N commits followed by
M undos (M ≤ N) followed by K redos (K ≤ M) leaves as committed sequence
exactly the first N - M + K actions of the originally committed sequence,
in their original order. -/
theorem undo_redo_take_spec (l : List DrawingAction) (M K : Nat)
    (hM : M ≤ l.length) (hK : K ≤ M) :
    (commits l).actions = l ∧
    (redo^[K] (undo^[M] (commits l))).actions = l.take (l.length - M + K) := by
  refine ⟨by rw [commits_eq], ?_⟩
  rw [commits_eq]
  have hdl : (l.drop (l.length - M)).length = M := by
    rw [List.length_drop]
    omega
  have h1 : undo^[M] (⟨l, []⟩ : LogState) =
      ⟨l.take (l.length - M), (l.drop (l.length - M)).reverse⟩ := by
    have h := undo_iterate (l.drop (l.length - M)) (l.take (l.length - M)) []
    rw [hdl, List.take_append_drop] at h
    simpa using h
  rw [h1]
  have hv : ((l.drop (l.length - M)).take K).length = K := by
    rw [List.length_take]
    omega
  have hdrev : (l.drop (l.length - M)).reverse =
      ((l.drop (l.length - M)).drop K).reverse ++
        ((l.drop (l.length - M)).take K).reverse := by
    conv_lhs => rw [← List.take_append_drop K (l.drop (l.length - M))]
    rw [List.reverse_append]
  have h2 := redo_iterate ((l.drop (l.length - M)).take K)
    (l.take (l.length - M)) (((l.drop (l.length - M)).drop K).reverse)
  rw [hv, ← hdrev] at h2
  rw [h2, ← List.take_add]

/-- Closed instance of c1: two commits, one undo, one redo leave the first
2 - 1 + 1 = 2 actions committed. -/
theorem undo_redo_take_spec_witness :
    (1 ≤ ([actA, actB] : List DrawingAction).length ∧ 1 ≤ 1) ∧
    ((commits [actA, actB]).actions = [actA, actB] ∧
      (redo^[1] (undo^[1] (commits [actA, actB]))).actions =
        [actA, actB].take ([actA, actB].length - 1 + 1)) :=
  ⟨⟨by decide, le_refl 1⟩, undo_redo_take_spec [actA, actB] 1 1 (by decide) (le_refl 1)⟩

/-- C2: commit appends the action to the end of the committed sequence and
empties the undone sequence; consequently after any commit — in particular
a commit following any number of undos — a subsequent redo is a no-op. -/
theorem commit_invalidates_redo (a : DrawingAction) (s : LogState) :
    commit a s = ⟨s.actions ++ [a], []⟩ ∧
    (∀ m : Nat, redo (commit a (undo^[m] s)) = commit a (undo^[m] s)) :=
  ⟨rfl, fun _ => redo_nil_redoStack _ rfl⟩

/-- C3: clearLayer removes from the committed sequence exactly the actions
whose layer index equals the given one (their count drops to zero, every
other action keeps its multiplicity), keeps the survivors in their original
relative order, and empties the undone sequence. -/
theorem clearLayer_spec (i : Nat) (s : LogState) :
    (clearLayer i s).actions.Sublist s.actions ∧
    (∀ a : DrawingAction,
      (clearLayer i s).actions.count a =
        if a.layer = i then 0 else s.actions.count a) ∧
    (clearLayer i s).redoStack = [] :=
  ⟨List.filter_sublist _, fun a => count_filter_layer i a s.actions, rfl⟩

/-- C4: the redraw effect first clears the whole surface, then visits layers
in ascending index order, skips invisible layers, and for each visible layer
executes exactly the committed actions whose layer index equals that layer's
index, in commit order: `replay` coincides with the spec-side `replaySpec`. -/
theorem replay_refines_spec (layers : List Layer) (acts : List DrawingAction) :
    replay layers acts = replaySpec layers acts := by
  simp [replay, replaySpec, replayAux_enumFrom, List.enum]

/-- Counterexample to C5 as stated: from the initial state, pointer-down at
(1,2) followed by the pointer leaving the surface does not discard the
accumulated gesture points, and a later pointer-up inside the surface
commits an action built from the stale gesture. -/
theorem gesture_leave_counterexample :
    (handleMouseLeave (handlePointerDown (1, 2) initApp)).currentPoints = [(1, 2)] ∧
    (handleMouseLeave (handlePointerDown (1, 2) initApp)).currentPoints ≠ [] ∧
    (handlePointerUp (3, 4)
        (handleMouseLeave (handlePointerDown (1, 2) initApp))).actions =
      [{ type := ToolType.brush, points := [(1, 2), (3, 4)], color := "#2563eb",
         size := 12, layer := 1 }] := by
  refine ⟨by decide, by decide, by decide⟩

/-- C5 amended: when the pointer leaves the drawing surface mid-gesture, the
handler only ends the in-progress flag, so no action is committed at that
moment, the log is unchanged, and no further points accumulate on moves; the
accumulated current points and the start point are retained (not discarded),
so a later pointer-up inside the surface still commits from them. -/
theorem gesture_leave_spec (s : AppState) :
    (handleMouseLeave s).isDrawing = false ∧
    (handleMouseLeave s).actions = s.actions ∧
    (handleMouseLeave s).redoStack = s.redoStack ∧
    (handleMouseLeave s).currentPoints = s.currentPoints ∧
    (handleMouseLeave s).startPoint = s.startPoint ∧
    (∀ pos : Point, handlePointerMove pos (handleMouseLeave s) = handleMouseLeave s) := by
  refine ⟨rfl, rfl, rfl, rfl, rfl, fun pos => ?_⟩
  simp [handlePointerMove, handleMouseLeave]

/-- Counterexample to C6 as stated: undoing from committed `[actA]` with
undone `[actB]` places `actA` at the back of the undone sequence, not the
front, and redoing from undone `[actA, actB]` moves `actB` (the last
element), not the first. -/
theorem undo_redo_front_counterexample :
    (undo ⟨[actA], [actB]⟩).redoStack = [actB, actA] ∧
    ([actB, actA] : List DrawingAction) ≠ [actA, actB] ∧
    (redo ⟨[], [actA, actB]⟩).actions = [actB] ∧
    ([actB] : List DrawingAction) ≠ [actA] := by
  refine ⟨by decide, by decide, by decide, by decide⟩

/-- C6 amended: with non-empty committed, undo moves the last element of
committed to the END of the undone sequence; with non-empty undone, redo
removes the LAST element of undone and appends it to committed — the undone
sequence is maintained with the most-recently-undone action last (the
reverse orientation of the claim). -/
theorem undo_redo_back (t r : List DrawingAction) (a : DrawingAction) :
    undo ⟨t ++ [a], r⟩ = ⟨t, r ++ [a]⟩ ∧ redo ⟨t, r ++ [a]⟩ = ⟨t ++ [a], r⟩ :=
  ⟨undo_concat t r a, redo_concat t r a⟩

/-- C7: over any operation sequence from the empty log whose committed
actions are pairwise distinct, no action ever appears in both sequences or
twice in either (the two sequences together are duplicate-free), and every
action present was one of the committed ones — operations only move actions
between the sequences or drop them. -/
theorem log_exclusive_membership (l : List LogOp) (h : (commitsOf l).Nodup) :
    ((runOps l).actions ++ (runOps l).redoStack).Nodup ∧
    (∀ a : DrawingAction,
      a ∈ (runOps l).actions ++ (runOps l).redoStack → a ∈ commitsOf l) := by
  have hsub := runOps_sublist l
  have hnd : ((runOps l).logContent).Nodup := h.sublist hsub
  rw [LogState.logContent, List.nodup_append] at hnd
  constructor
  · rw [List.nodup_append]
    exact ⟨hnd.1, List.nodup_reverse.mp hnd.2.1,
      fun a ha hb => hnd.2.2 ha (List.mem_reverse.mpr hb)⟩
  · intro a ha
    apply hsub.subset
    rw [LogState.logContent]
    rcases List.mem_append.mp ha with h1 | h1
    · exact List.mem_append.mpr (Or.inl h1)
    · exact List.mem_append.mpr (Or.inr (List.mem_reverse.mpr h1))

/-- A concrete operation sequence: two distinct commits and one undo. -/
def opsW : List LogOp := [LogOp.commit actA, LogOp.commit actB, LogOp.undo]

/-- Closed instance of c7 on two distinct commits followed by an undo. -/
theorem log_exclusive_membership_witness :
    (commitsOf opsW).Nodup ∧
    (((runOps opsW).actions ++ (runOps opsW).redoStack).Nodup ∧
      (∀ a : DrawingAction,
        a ∈ (runOps opsW).actions ++ (runOps opsW).redoStack → a ∈ commitsOf opsW)) :=
  ⟨by decide, log_exclusive_membership opsW (by decide)⟩

/-- C8: a circle action with exactly two points draws one stroked circle
centered at the first point, whose radius is the Euclidean distance between
the two points; for the points (50,50) and (53,54) that radius is exactly 5. -/
theorem circle_draw_spec (a : DrawingAction) (p q : Point)
    (ht : a.type = ToolType.circle) (hp : a.points = [p, q]) :
    drawAction a = [Prim.strokeCircle a.color a.size p (circleRadius p q)] ∧
    circleRadius p q = dist (toPlane p) (toPlane q) ∧
    circleRadius (50, 50) (53, 54) = 5 := by
  obtain ⟨x0, y0⟩ := p
  obtain ⟨x1, y1⟩ := q
  refine ⟨?_, ?_, ?_⟩
  · simp [drawAction, ht, hp]
  · rw [EuclideanSpace.dist_eq, circleRadius]
    congr 1
    rw [Fin.sum_univ_two]
    simp only [toPlane, Matrix.cons_val_zero, Matrix.cons_val_one, Matrix.head_cons,
      Real.dist_eq, sq_abs]
    push_cast
    ring
  · rw [circleRadius]
    norm_num
    rw [show (25 : ℝ) = (5 : ℝ) ^ 2 by norm_num]
    exact Real.sqrt_sq (by norm_num)

/-- The example circle action of the spec's scenario. -/
def circleAct : DrawingAction :=
  { type := ToolType.circle, points := [(50, 50), (53, 54)], color := "#000000",
    size := 12, layer := 0 }

/-- Closed instance of c8 on the example circle action. -/
theorem circle_draw_spec_witness :
    circleAct.type = ToolType.circle ∧
    circleAct.points = [(50, 50), (53, 54)] ∧
    (drawAction circleAct =
        [Prim.strokeCircle circleAct.color circleAct.size (50, 50)
          (circleRadius (50, 50) (53, 54))] ∧
      circleRadius (50, 50) (53, 54) = dist (toPlane (50, 50)) (toPlane (53, 54)) ∧
      circleRadius (50, 50) (53, 54) = 5) :=
  ⟨rfl, rfl, circle_draw_spec circleAct (50, 50) (53, 54) rfl rfl⟩

/-- C9: undo on a state with empty committed and redo on a state with empty
undone leave the whole log state unchanged — silent no-ops. -/
theorem undo_redo_noop (s : LogState) :
    (s.actions = [] → undo s = s) ∧ (s.redoStack = [] → redo s = s) :=
  ⟨undo_nil_actions s, redo_nil_redoStack s⟩

/-- Closed instance of c9 at the empty log. -/
theorem undo_redo_noop_witness :
    undo initLog = initLog ∧ redo initLog = initLog :=
  ⟨(undo_redo_noop initLog).1 rfl, (undo_redo_noop initLog).2 rfl⟩

/-- C10: a rectangle or circle action whose points list does not have exactly
two entries executes no drawing primitive at all: `drawAction` totally and
silently produces the empty primitive list. -/
theorem malformed_shape_skipped (a : DrawingAction)
    (ht : a.type = ToolType.rectangle ∨ a.type = ToolType.circle)
    (hp : a.points.length ≠ 2) :
    drawAction a = [] := by
  obtain ⟨ty, pts, c, sz, ly⟩ := a
  simp only at ht hp
  rcases ht with h | h <;> subst h <;>
    match pts, hp with
    | [], _ => rfl
    | [(x0, y0)], _ => rfl
    | [(x0, y0), (x1, y1)], hp => exact absurd rfl hp
    | (x0, y0) :: (x1, y1) :: (x2, y2) :: rest, _ => rfl

/-- A malformed circle action with three points. -/
def badCircle : DrawingAction :=
  { type := ToolType.circle, points := [(0, 0), (1, 1), (2, 2)], color := "#000000",
    size := 1, layer := 0 }

/-- Closed instance of c10 on a three-point circle action. -/
theorem malformed_shape_skipped_witness :
    (badCircle.type = ToolType.rectangle ∨ badCircle.type = ToolType.circle) ∧
    badCircle.points.length ≠ 2 ∧
    drawAction badCircle = [] :=
  ⟨Or.inr rfl, by decide, malformed_shape_skipped badCircle (Or.inr rfl) (by decide)⟩

end DrawingApp
